import Mathlib

/-!
Verification of the PyrusTelegramBot delayed-notification core.

The Python source (`app/utils.py`, `app/db.py`, `app/api.py`, `app/worker.py`)
is shallowly embedded here:

* Instants are `Int` seconds since the Unix epoch, in UTC (the source stores
  UTC-naive `datetime`s and converts through a fixed-offset timezone; the
  deployed zone `Asia/Yekaterinburg` is a fixed +05:00 offset with no DST,
  so a timezone is modelled as its offset from UTC in seconds).
* Times of day ("HH:MM" strings in the source) are modelled as the pair of
  integers the source parses them into.
* Durations given to the source as float hours are modelled in seconds.
* The database tables are lists of rows; a Supabase `update`/`delete` with
  an `eq` filter acts on every matching row, an `insert` appends.
-/

namespace PyrusBot

/-- A time of day, as parsed from an "HH:MM" string by `map(int, s.split(':'))`. -/
structure TimeOfDay where
  hour : Int
  minute : Int
deriving DecidableEq, Repr

/-- Seconds-of-day value of a parsed "HH:MM" time (Python compares
`datetime.time` objects, which is equivalent to comparing these values for
times with zero seconds and microseconds). -/
def TimeOfDay.toSec (t : TimeOfDay) : Int :=
  t.hour * 3600 + t.minute * 60

/-- Local civil seconds-of-day of a UTC instant under a fixed offset
(`dt.astimezone(tz).time()` in the source).  Calendar arithmetic needs
floor division and modulus; `/` and `%` on `Int` are the Euclidean
operations, which agree with them for the positive divisors used here. -/
def localSecOfDay (off t : Int) : Int :=
  (t + off) % 86400

/-- Local civil day index of a UTC instant (`dt.astimezone(tz).date()`). -/
def localDay (off t : Int) : Int :=
  (t + off) / 86400

/-- Local civil hour of a UTC instant (`dt.astimezone(tz).hour`). -/
def localHour (off t : Int) : Int :=
  localSecOfDay off t / 3600

/-- The UTC instant of a given local day index and local seconds-of-day
(`tz.localize(datetime.combine(day, time)).astimezone(UTC)`). -/
def utcOfLocal (off day sec : Int) : Int :=
  day * 86400 + sec - off

/-- Embedding of `app/utils.py::is_in_quiet_hours`: true when the instant's
local time of day falls in the configured quiet window.  If the window's end
is not after its start it wraps midnight. -/
def is_in_quiet_hours (t : Int) (off : Int) (qs qe : TimeOfDay) : Bool :=
  let cur := localSecOfDay off t
  if qe.toSec ≤ qs.toSec then
    qs.toSec ≤ cur || cur < qe.toSec
  else
    qs.toSec ≤ cur && cur < qe.toSec

/-- Embedding of `app/utils.py::schedule_after`: add the delay to the base
instant; if the candidate falls in quiet hours, move it to the quiet-window
end on the local day the source chooses (`next_day`), else keep it. -/
def schedule_after (base delay : Int) (off : Int) (qs qe : TimeOfDay) : Int :=
  let cand := base + delay
  if is_in_quiet_hours cand off qs qe then
    let day := localDay off cand
    let day' :=
      if qe.hour ≤ qs.hour then
        if localHour off cand ≥ qs.hour then day + 1 else day
      else
        day + 1
    utcOfLocal off day' qe.toSec
  else
    cand

/-- A row of the `pending_notifications` table (`app/models.py` /
`app/db.py`). -/
structure PendingRow where
  task_id : Int
  user_id : Int
  first_mention_at : Int
  last_mention_at : Int
  last_mention_comment_id : Int
  last_mention_comment_text : String
  last_mention_comment_text_clean : String
  task_title : Option String
  next_send_at : Int
  times_sent : Int
deriving DecidableEq, Repr

/-- A row of the `users` table. -/
structure UserRow where
  user_id : Int
  telegram_id : Int
  full_name : Option String
deriving DecidableEq, Repr

/-- The mutable database state shared by the webhook handler and the worker:
the four tables the notification core touches. -/
structure DBState where
  users : List UserRow
  pending : List PendingRow
  processed : List (Int × Int)
  settings : List (String × String)
deriving DecidableEq, Repr

/-- The row filter `eq("task_id", t).eq("user_id", u)` used throughout
`app/db.py`. -/
def PendingRow.hasKey (r : PendingRow) (t u : Int) : Bool :=
  r.task_id == t && r.user_id == u

/-- Python truthiness of an `Optional[str]` (`if task_title` in
`upsert_or_shift_pending`). -/
def truthy : Option String → Bool
  | none => false
  | some s => !(s == "")

/-- Python `a or b` for an `Optional[str]` `a` and a `str` default
(`comment_text_clean or comment_text`). -/
def orText : Option String → String → String
  | none, d => d
  | some s, d => if s == "" then d else s

/-- Embedding of `Database.upsert_or_shift_pending`: if a row for
`(task_id, user_id)` exists, overwrite its last-mention fields (and the
title, when a non-empty one is given) in place, else insert a fresh row
with `times_sent = 0`. -/
def upsert_or_shift_pending (s : DBState) (task_id user_id mention_ts comment_id : Int)
    (comment_text : String) (next_send_at : Int) (task_title : Option String)
    (comment_text_clean : Option String) : DBState :=
  if (s.pending.filter (fun r => r.hasKey task_id user_id)).isEmpty then
    { s with pending := s.pending ++
        [{ task_id := task_id
           user_id := user_id
           first_mention_at := mention_ts
           last_mention_at := mention_ts
           last_mention_comment_id := comment_id
           last_mention_comment_text := comment_text
           last_mention_comment_text_clean := orText comment_text_clean comment_text
           task_title := task_title
           next_send_at := next_send_at
           times_sent := 0 }] }
  else
    { s with pending := s.pending.map (fun r =>
        if r.hasKey task_id user_id then
          { r with
            last_mention_at := mention_ts
            last_mention_comment_id := comment_id
            last_mention_comment_text := comment_text
            next_send_at := next_send_at
            task_title := if truthy task_title then task_title else r.task_title
            last_mention_comment_text_clean := orText comment_text_clean comment_text }
        else r) }

/-- Embedding of `Database.delete_pending`. -/
def delete_pending (s : DBState) (t u : Int) : DBState :=
  { s with pending := s.pending.filter (fun r => !(r.hasKey t u)) }

/-- Embedding of `Database.delete_pending_by_task`. -/
def delete_pending_by_task (s : DBState) (t : Int) : DBState :=
  { s with pending := s.pending.filter (fun r => !(r.task_id == t)) }

/-- Embedding of `Database.delete_pending_by_comment`. -/
def delete_pending_by_comment (s : DBState) (t c : Int) : DBState :=
  { s with pending :=
      s.pending.filter (fun r => !(r.task_id == t && r.last_mention_comment_id == c)) }

/-- Embedding of `Database.get_user`. -/
def get_user (s : DBState) (uid : Int) : Option UserRow :=
  s.users.find? (fun u => u.user_id == uid)

/-- Embedding of `Database.select_due`: the pending rows with
`next_send_at ≤ now`, keeping only those whose `user_id` resolves in the
`users` table ("Пропускаем записи без пользователей"). -/
def select_due (s : DBState) (now : Int) : List PendingRow :=
  (s.pending.filter (fun r => decide (r.next_send_at ≤ now))).filter
    (fun r => (get_user s r.user_id).isSome)

/-- Embedding of `Database.mark_sent_or_delete_by_ttl`: fetch the row for
the pair; if `now` has reached `last_mention_at` plus the TTL, delete it,
otherwise bump `times_sent` and reschedule `next_send_at` through
`schedule_after`. -/
def mark_sent_or_delete_by_ttl (s : DBState) (t u now ttl rep off : Int)
    (qs qe : TimeOfDay) : DBState :=
  match (s.pending.filter (fun r => r.hasKey t u)).head? with
  | none => s
  | some row =>
    if now ≥ row.last_mention_at + ttl then
      delete_pending s t u
    else
      { s with pending := s.pending.map (fun r =>
          if r.hasKey t u then
            { r with
              times_sent := row.times_sent + 1
              next_send_at := schedule_after now rep off qs qe }
          else r) }

/-- Embedding of `Database.processed_comment_exists`. -/
def processed_comment_exists (s : DBState) (t c : Int) : Bool :=
  s.processed.contains (t, c)

/-- Embedding of `Database.insert_processed_comment`. -/
def insert_processed_comment (s : DBState) (t c : Int) : DBState :=
  { s with processed := s.processed ++ [(t, c)] }

/-- Embedding of `Database.settings_get`. -/
def settings_get (s : DBState) (k : String) : Option String :=
  (s.settings.find? (fun p => p.1 == k)).map (fun p => p.2)

/-! ### Ingestion handler (`app/api.py::_handle_comment_event`) -/

/-- One comment of an inbound `comment` webhook (`app/models.py::PyrusComment`,
restricted to the fields the handler reads; `author` is the author's id, absent
for system actions). -/
structure CommentIn where
  id : Int
  text : Option String
  create_date : Int
  author : Option Int
  mentions : List Int
deriving DecidableEq, Repr

/-- A `comment` webhook event as seen by `_handle_comment_event`.  `title` is
the value of the source's task-title expression
`(task.subject or task.text) or f"Задача #{task.id}"`, carried as data: the
title never influences control flow in the handler, only what is stored. -/
structure CommentEvent where
  task_id : Int
  title : Option String
  actor : Option Int
  comments : List CommentIn
deriving DecidableEq, Repr

/-- Stable insertion (ascending by `key`): the new element goes after every
element whose key is not greater.  Folding it over a list from the left is
exactly Python's stable `sorted(..., key=...)`. -/
def insertByKeyAsc (key : α → Int) : List α → α → List α
  | [], x => [x]
  | y :: ys, x => if key x < key y then x :: y :: ys else y :: insertByKeyAsc key ys x

/-- Stable ascending sort by an integer key (Python `sorted`). -/
def sortByKeyAsc (key : α → Int) (l : List α) : List α :=
  l.foldl (insertByKeyAsc key) []

/-- The full names of the registered mentioned users with a non-empty
`full_name` (`mentioned_full_names` in `_handle_comment_event`). -/
def mentionNames (s : DBState) (mentions : List Int) : List String :=
  mentions.filterMap (fun uid =>
    match get_user s uid with
    | some u =>
      match u.full_name with
      | some n => if n == "" then none else some n
      | none => none
    | none => none)

/-- Queue mutations of one unprocessed comment: for each mentioned user that
is registered, upsert-or-shift the pending row with a send time scheduled
`delay` after the comment time.  `cleanOf` abstracts the comment-text cleaning
pipeline (`remove_full_names` followed by `extract_last_meaningful_paragraph`;
the latter is imported from `app.utils` but absent from `src/`, so the cleaned
text — pure data stored in the row — is kept abstract and every theorem below
holds for an arbitrary pipeline). -/
def processCommentMentions (cleanOf : String → List String → String)
    (delay off : Int) (qs qe : TimeOfDay) (e : CommentEvent) (c : CommentIn)
    (s : DBState) : DBState :=
  let commentText := c.text.getD "(системное действие)"
  let cleanText := cleanOf commentText (mentionNames s c.mentions)
  c.mentions.foldl (fun st uid =>
    match get_user st uid with
    | none => st
    | some _ =>
      upsert_or_shift_pending st e.task_id uid c.create_date c.id commentText
        (schedule_after c.create_date delay off qs qe) e.title (some cleanText)) s

/-- The per-comment loop of `_handle_comment_event`, with an explicit flag for
the dedup-ledger availability: an already-processed comment is skipped; an
unprocessed one is first recorded in the ledger — when the ledger store is
unavailable that write raises, aborting the event (`false`) with the state
reached so far — and then, if it has mentions, its queue mutations run. -/
def runComments (ledgerOk : Bool) (cleanOf : String → List String → String)
    (delay off : Int) (qs qe : TimeOfDay) (e : CommentEvent) :
    DBState → List CommentIn → DBState × Bool
  | s, [] => (s, true)
  | s, c :: rest =>
    if processed_comment_exists s e.task_id c.id then
      runComments ledgerOk cleanOf delay off qs qe e s rest
    else if ledgerOk then
      let s1 := insert_processed_comment s e.task_id c.id
      let s2 := if c.mentions.isEmpty then s1
                else processCommentMentions cleanOf delay off qs qe e c s1
      runComments ledgerOk cleanOf delay off qs qe e s2 rest
    else
      (s, false)

/-- The distinct comment-author ids of the event (`authors_to_clear`; Python
builds a set, and ids must be truthy, so `0` is excluded). -/
def authorsToClear (cs : List CommentIn) : List Int :=
  ((cs.filterMap (fun c => c.author)).filter (fun a => !(a == 0))).dedup

/-- The reaction-clearing tail of `_handle_comment_event`: delete the queue
row of every comment author (`authors_to_clear`) and, when the event has an
actor with a truthy id, the actor's row too. -/
def clear_reactors (tid : Int) (as : List Int) (actor : Option Int)
    (s : DBState) : DBState :=
  let s2 := as.foldl (fun st a => delete_pending st tid a) s
  match actor with
  | some a => if a == 0 then s2 else delete_pending s2 tid a
  | none => s2

/-- Embedding of `_handle_comment_event`, with the ledger-availability flag:
sort the comments by creation date, run the per-comment loop, and — when it
completes — clear the queue for every comment author and for the event's
actor (a user's own comment counts as their reaction). -/
def handle_comment_event_run (ledgerOk : Bool)
    (cleanOf : String → List String → String) (delay off : Int)
    (qs qe : TimeOfDay) (e : CommentEvent) (s : DBState) : DBState × Bool :=
  if e.comments.isEmpty then (s, true)
  else
    let sorted := sortByKeyAsc (fun c => c.create_date) e.comments
    match runComments ledgerOk cleanOf delay off qs qe e s sorted with
    | (s1, false) => (s1, false)
    | (s1, true) => (clear_reactors e.task_id (authorsToClear sorted) e.actor s1, true)

/-- `_handle_comment_event` with the ledger store available (the normal
path). -/
def handle_comment_event (cleanOf : String → List String → String)
    (delay off : Int) (qs qe : TimeOfDay) (e : CommentEvent) (s : DBState) :
    DBState :=
  (handle_comment_event_run true cleanOf delay off qs qe e s).1

/-! ### Delivery worker (`app/worker.py`) -/

/-- Embedding of `NotificationWorker._is_service_enabled`: the setting's value
must be the exact string `"true"` (a missing setting, like a store error,
counts as disabled). -/
def service_enabled (s : DBState) : Bool :=
  settings_get s "service_enabled" == some "true"

/-- First-occurrence deduplication, mirroring Python dict-key insertion
order in `_group_by_user`. -/
def firstDedup (seen : List Int) : List Int → List Int
  | [] => []
  | x :: xs =>
    if seen.contains x then firstDedup seen xs
    else x :: firstDedup (x :: seen) xs

/-- Embedding of `NotificationWorker._group_by_user`: batches keyed by
`user_id` in first-appearance order, each batch in record order. -/
def group_by_user (l : List PendingRow) : List (Int × List PendingRow) :=
  (firstDedup [] (l.map (fun r => r.user_id))).map
    (fun u => (u, l.filter (fun r => r.user_id == u)))

/-- Embedding of one `NotificationWorker._process_cycle` tick, restricted to
its queue effects and delivery attempts: skip everything when the service is
disabled or the instant is inside quiet hours; otherwise select the due rows,
group them into per-recipient batches (the delivery attempts, returned as the
second component) and apply `mark_sent_or_delete_by_ttl` to every due row. -/
def worker_tick (s : DBState) (now ttl rep off : Int) (qs qe : TimeOfDay) :
    DBState × List (Int × List PendingRow) :=
  if !(service_enabled s) then (s, [])
  else if is_in_quiet_hours now off qs qe then (s, [])
  else
    let due := select_due s now
    if due.isEmpty then (s, [])
    else
      let batches := group_by_user due
      let s' := due.foldl
        (fun st r => mark_sent_or_delete_by_ttl st r.task_id r.user_id now ttl rep off qs qe) s
      (s', batches)

/-! ### Batch-message formatting (`app/worker.py::_format_multi_message`) -/

/-- Modelled from the spec: `calculate_fire_icons` is imported by
`app/worker.py` from `app.utils` but is absent from `src/`; only its callers
are present, and the worker sorts a batch by the length of the returned icon
string.  The spec says the batch is "ordered by a computed urgency score
derived from hours-overdue and times-sent (most urgent first)" and that "the
more overdue item is listed first", so the score is modelled as strictly
dominated by hours-overdue and weakly increasing in times-sent. -/
def fire_level (hours_overdue times_sent : Int) : Int :=
  2 * hours_overdue + min (max times_sent 0) 1

/-- Hours overdue of a row at `now`
(`int((now - last_mention).total_seconds() / 3600)`; Python `int()` truncates
toward zero, as does `Int.div`). -/
def hoursOverdue (now last : Int) : Int :=
  Int.tdiv (now - last) 3600

/-- One entry of the batch message, as assembled by `_format_multi_message`
before sorting. -/
structure TaskLine where
  task_id : Int
  title : String
  comment : String
  fire_level : Int
deriving DecidableEq, Repr

/-- Build a batch entry from a pending row (`stripAt` abstracts
`remove_at_mentions`, a regex transformation of the displayed text only). -/
def mkTaskLine (stripAt : String → String) (truncTitle truncComment : Nat)
    (now : Int) (r : PendingRow) : TaskLine :=
  { task_id := r.task_id
    title := (orText r.task_title ("Задача #" ++ toString r.task_id)).take truncTitle
    comment := (stripAt (orText (some r.last_mention_comment_text_clean)
      r.last_mention_comment_text)).take truncComment
    fire_level := fire_level (hoursOverdue now r.last_mention_at) r.times_sent }

/-- Stable insertion (descending by `key`): the new element goes after every
element whose key is not smaller.  Folding it over a list from the left is
Python's stable `list.sort(key=..., reverse=True)`. -/
def insertByKeyDesc (key : α → Int) : List α → α → List α
  | [], x => [x]
  | y :: ys, x => if key x > key y then x :: y :: ys else y :: insertByKeyDesc key ys x

/-- Stable descending sort by an integer key. -/
def sortByKeyDesc (key : α → Int) (l : List α) : List α :=
  l.foldl (insertByKeyDesc key) []

/-- Embedding of `_format_multi_message`, up to the entry list: build one
entry per record and sort by fire level, most urgent first (Python
`task_data.sort(key=lambda x: x['fire_level'], reverse=True)`). -/
def format_multi (stripAt : String → String) (truncTitle truncComment : Nat)
    (now : Int) (records : List PendingRow) : List TaskLine :=
  sortByKeyDesc (fun t => t.fire_level)
    (records.map (mkTaskLine stripAt truncTitle truncComment now))

/-- The rendered text of one batch entry. -/
def TaskLine.render (t : TaskLine) : String :=
  t.title ++ "\n💬 " ++ t.comment ++ "\n🔗 https://pyrus.com/t#id" ++ toString t.task_id

/-- The full batch message: a greeting header followed by the entries in
sorted order. -/
def format_multi_message (stripAt : String → String)
    (truncTitle truncComment : Nat) (now : Int) (records : List PendingRow) :
    String :=
  "👋 Привет! У вас есть неотвеченная задача 📋\n\n" ++
    String.intercalate "\n\n"
      ((format_multi stripAt truncTitle truncComment now records).map TaskLine.render)

/-! ### The queue-mutation language for the store invariant -/

/-- The operations that ever touch `pending_notifications`: ingestion's
upsert-or-shift, the three targeted deletes (reaction, closure, comment
retraction) and the worker's post-send update. -/
inductive QueueOp where
  | upsert (task_id user_id mention_ts comment_id : Int) (comment_text : String)
      (next_send_at : Int) (task_title : Option String)
      (comment_text_clean : Option String)
  | deleteOne (task_id user_id : Int)
  | deleteTask (task_id : Int)
  | deleteComment (task_id comment_id : Int)
  | markSent (task_id user_id now ttl rep off : Int) (qs qe : TimeOfDay)

/-- Interpretation of a queue operation on the database state. -/
def applyOp (s : DBState) : QueueOp → DBState
  | .upsert t u ts c txt ns title clean => upsert_or_shift_pending s t u ts c txt ns title clean
  | .deleteOne t u => delete_pending s t u
  | .deleteTask t => delete_pending_by_task s t
  | .deleteComment t c => delete_pending_by_comment s t c
  | .markSent t u now ttl rep off qs qe => mark_sent_or_delete_by_ttl s t u now ttl rep off qs qe

/-- A whole history of ingestion operations and worker updates. -/
def applyOps (s : DBState) (ops : List QueueOp) : DBState :=
  ops.foldl applyOp s

/-- At most one pending row per `(work item, recipient)` pair. -/
def atMostOnePerKey (l : List PendingRow) : Prop :=
  ∀ t u, l.countP (fun r => r.hasKey t u) ≤ 1

/-- A well-formed parsed "HH:MM" time of day. -/
def TimeOfDay.Valid (t : TimeOfDay) : Prop :=
  0 ≤ t.hour ∧ t.hour < 24 ∧ 0 ≤ t.minute ∧ t.minute < 60

/-! ### Helper lemmas -/

lemma localSecOfDay_nonneg (off t : Int) : 0 ≤ localSecOfDay off t :=
  Int.emod_nonneg _ (by norm_num)

lemma localSecOfDay_lt (off t : Int) : localSecOfDay off t < 86400 :=
  Int.emod_lt_of_pos _ (by norm_num)

lemma localSecOfDay_utcOfLocal (off day sec : Int) (h0 : 0 ≤ sec)
    (h1 : sec < 86400) : localSecOfDay off (utcOfLocal off day sec) = sec := by
  unfold localSecOfDay utcOfLocal
  omega

/-- The quiet-hours test, expressed on the local seconds-of-day. -/
lemma quiet_iff (t off : Int) (qs qe : TimeOfDay) :
    is_in_quiet_hours t off qs qe = true ↔
      (if qe.toSec ≤ qs.toSec
       then qs.toSec ≤ localSecOfDay off t ∨ localSecOfDay off t < qe.toSec
       else qs.toSec ≤ localSecOfDay off t ∧ localSecOfDay off t < qe.toSec) := by
  unfold is_in_quiet_hours
  split <;> simp

lemma schedule_after_of_not_quiet (base delay off : Int) (qs qe : TimeOfDay)
    (h : is_in_quiet_hours (base + delay) off qs qe = false) :
    schedule_after base delay off qs qe = base + delay := by
  unfold schedule_after
  simp [h]

lemma schedule_after_quiet_tod (base delay off : Int) (qs qe : TimeOfDay)
    (h0 : 0 ≤ qe.toSec) (h1 : qe.toSec < 86400)
    (hq : is_in_quiet_hours (base + delay) off qs qe = true) :
    localSecOfDay off (schedule_after base delay off qs qe) = qe.toSec := by
  unfold schedule_after
  rw [if_pos hq]
  exact localSecOfDay_utcOfLocal off _ qe.toSec h0 h1

lemma schedule_after_quiet_gt (base delay off : Int) (qs qe : TimeOfDay)
    (hqs : qs.Valid) (hqe : qe.Valid)
    (hq : is_in_quiet_hours (base + delay) off qs qe = true) :
    base + delay < schedule_after base delay off qs qe := by
  have h := (quiet_iff (base + delay) off qs qe).1 hq
  obtain ⟨hs0, hs1, hs2, hs3⟩ := hqs
  obtain ⟨he0, he1, he2, he3⟩ := hqe
  unfold schedule_after
  rw [if_pos hq]
  dsimp only
  unfold localDay localHour localSecOfDay utcOfLocal TimeOfDay.toSec at *
  split at h
  · split
    · split <;> omega
    · omega
  · split
    · split <;> omega
    · omega

/-! ### C4 — quiet-hours window semantics -/

/-- **C4, counterexample.**  The claim asserts that for *every* window the end
instant lies outside it.  For the degenerate window `start = end = 22:00` the
source's wrap test `quiet_end_time <= quiet_start_time` fires and the whole
day — the end instant included — is quiet: at local 22:00 (UTC instant 61200
under the +05:00 offset, whose local seconds-of-day equal the window end)
`is_in_quiet_hours` returns `true`, where the claim demands `false`. -/
theorem quiet_hours_end_instant_counterexample :
    localSecOfDay 18000 61200 = TimeOfDay.toSec ⟨22, 0⟩ ∧
    is_in_quiet_hours 61200 18000 ⟨22, 0⟩ ⟨22, 0⟩ = true := by
  constructor
  · decide
  · decide

/-- **C4 (amended).**  For every instant and window: when `end ≤ start` as
time-of-day the window wraps and `is_in_quiet_hours` is true exactly when the
local time-of-day is `≥ start` or `< end`; otherwise it is true exactly when
`start ≤ time-of-day < end`.  The start instant is always inside the window,
and — provided `end ≠ start` — the end instant is outside it. -/
theorem quiet_hours_semantics (t off : Int) (qs qe : TimeOfDay) :
    (is_in_quiet_hours t off qs qe = true ↔
      (if qe.toSec ≤ qs.toSec
       then qs.toSec ≤ localSecOfDay off t ∨ localSecOfDay off t < qe.toSec
       else qs.toSec ≤ localSecOfDay off t ∧ localSecOfDay off t < qe.toSec))
    ∧ (localSecOfDay off t = qs.toSec → is_in_quiet_hours t off qs qe = true)
    ∧ (qe.toSec ≠ qs.toSec → localSecOfDay off t = qe.toSec →
        is_in_quiet_hours t off qs qe = false) := by
  refine ⟨quiet_iff t off qs qe, ?_, ?_⟩
  · intro hs
    unfold is_in_quiet_hours
    rw [hs]
    split <;> simp <;> omega
  · intro hne he
    unfold is_in_quiet_hours
    rw [he]
    split <;> simp <;> omega

/-- **C4, witness.**  The spec's own examples, via `quiet_hours_semantics`
with the +05:00 offset: for the wrapping window 22:00–09:00 the start
instant 22:00 (UTC 61200) is quiet and the end instant 09:00 (UTC 14400) is
not; for 12:00–13:00, 13:00 (UTC 28800) is not quiet.  The remaining example
instants are evaluated through the characterization directly. -/
theorem quiet_hours_semantics_witness :
    is_in_quiet_hours 61200 18000 ⟨22, 0⟩ ⟨9, 0⟩ = true ∧
    is_in_quiet_hours 14400 18000 ⟨22, 0⟩ ⟨9, 0⟩ = false ∧
    is_in_quiet_hours 28800 18000 ⟨12, 0⟩ ⟨13, 0⟩ = false ∧
    is_in_quiet_hours 66600 18000 ⟨22, 0⟩ ⟨9, 0⟩ = true ∧
    is_in_quiet_hours 7200 18000 ⟨22, 0⟩ ⟨9, 0⟩ = true ∧
    is_in_quiet_hours 32400 18000 ⟨22, 0⟩ ⟨9, 0⟩ = false ∧
    is_in_quiet_hours 27000 18000 ⟨12, 0⟩ ⟨13, 0⟩ = true :=
  ⟨(quiet_hours_semantics 61200 18000 ⟨22, 0⟩ ⟨9, 0⟩).2.1 (by decide),
   (quiet_hours_semantics 14400 18000 ⟨22, 0⟩ ⟨9, 0⟩).2.2 (by decide) (by decide),
   (quiet_hours_semantics 28800 18000 ⟨12, 0⟩ ⟨13, 0⟩).2.2 (by decide) (by decide),
   (quiet_hours_semantics 66600 18000 ⟨22, 0⟩ ⟨9, 0⟩).1.2 (by decide),
   (quiet_hours_semantics 7200 18000 ⟨22, 0⟩ ⟨9, 0⟩).1.2 (by decide),
   by decide, by decide⟩

/-! ### C3 — scheduling with quiet-hours deferral -/

/-- **C3, counterexample.**  The claim asserts the deferred result is the
*earliest* non-quiet instant at or after the window's end, so for the
non-wrapping window 12:00–13:00 a candidate at local 12:30 (base local 12:00,
delay 30 min, +05:00 offset) should land on 13:00 of the *same* day
(UTC 28800) — an instant that is indeed the window's end and not quiet.  The
source's `else` branch takes `next_day = local_time.date() + timedelta(days=1)`
unconditionally for non-wrapping windows, returning 13:00 of the *next* day
(UTC 115200) instead. -/
theorem schedule_after_same_day_counterexample :
    schedule_after 25200 1800 18000 ⟨12, 0⟩ ⟨13, 0⟩ = 115200 ∧
    is_in_quiet_hours (25200 + 1800) 18000 ⟨12, 0⟩ ⟨13, 0⟩ = true ∧
    localSecOfDay 18000 28800 = TimeOfDay.toSec ⟨13, 0⟩ ∧
    is_in_quiet_hours 28800 18000 ⟨12, 0⟩ ⟨13, 0⟩ = false ∧
    (115200 : Int) ≠ 28800 := by
  refine ⟨by decide, by decide, by decide, by decide, by decide⟩

/-- **C3 (amended).**  For every base time and delay (fractional, zero or
negative) and valid window times, `schedule_after` returns `base + delay`
when that candidate is outside quiet hours; otherwise it returns an instant
strictly after the candidate whose local time-of-day is exactly the window's
end — the day being chosen by the source as: next day for a non-wrapping
window, and for a wrapping window the next day exactly when the candidate's
local hour has reached the window's start hour.  For the wrapping window
22:00–09:00 a candidate of 23:00 yields 09:00 the next day; for the
non-wrapping window 12:00–13:00 a candidate of 12:30 yields 13:00 the next
day (see the witness for both). -/
theorem schedule_after_deferral (base delay off : Int) (qs qe : TimeOfDay)
    (hqs : qs.Valid) (hqe : qe.Valid) :
    (is_in_quiet_hours (base + delay) off qs qe = false →
      schedule_after base delay off qs qe = base + delay)
    ∧ (is_in_quiet_hours (base + delay) off qs qe = true →
        localSecOfDay off (schedule_after base delay off qs qe) = qe.toSec ∧
        base + delay < schedule_after base delay off qs qe) :=
  ⟨fun h => schedule_after_of_not_quiet base delay off qs qe h,
   fun h => ⟨schedule_after_quiet_tod base delay off qs qe
      (by unfold TimeOfDay.toSec; obtain ⟨a, b, c, d⟩ := hqe; omega)
      (by unfold TimeOfDay.toSec; obtain ⟨a, b, c, d⟩ := hqe; omega) h,
    schedule_after_quiet_gt base delay off qs qe hqs hqe h⟩⟩

/-- **C3, witness.**  Both spec examples under the +05:00 offset.  Wrapping
window 22:00–09:00: base local 20:00 (UTC 54000), delay 3 h, candidate local
23:00 is quiet, and the result is next-day 09:00 local (UTC 100800) — the
deferral theorem certifies its time-of-day and strictness, and `decide` its
exact value.  Non-wrapping window 12:00–13:00: candidate local 12:30 defers
to UTC 115200, next-day 13:00 local.  A non-quiet candidate (base local
10:00, delay 3 h) is returned unchanged. -/
theorem schedule_after_deferral_witness :
    (localSecOfDay 18000 (schedule_after 54000 10800 18000 ⟨22, 0⟩ ⟨9, 0⟩) =
        TimeOfDay.toSec ⟨9, 0⟩ ∧
      (54000 + 10800 : Int) < schedule_after 54000 10800 18000 ⟨22, 0⟩ ⟨9, 0⟩) ∧
    schedule_after 54000 10800 18000 ⟨22, 0⟩ ⟨9, 0⟩ = 100800 ∧
    schedule_after 25200 1800 18000 ⟨12, 0⟩ ⟨13, 0⟩ = 115200 ∧
    schedule_after 18000 10800 18000 ⟨22, 0⟩ ⟨9, 0⟩ = 18000 + 10800 :=
  ⟨(schedule_after_deferral 54000 10800 18000 ⟨22, 0⟩ ⟨9, 0⟩
      (by unfold TimeOfDay.Valid; decide) (by unfold TimeOfDay.Valid; decide)).2
    (by decide),
   by decide, by decide,
   (schedule_after_deferral 18000 10800 18000 ⟨22, 0⟩ ⟨9, 0⟩
      (by unfold TimeOfDay.Valid; decide) (by unfold TimeOfDay.Valid; decide)).1
    (by decide)⟩

/-! ### C1 — at most one pending row per (work item, recipient) pair -/

lemma countP_filter_le (p q : PendingRow → Bool) (l : List PendingRow) :
    (l.filter q).countP p ≤ l.countP p := by
  rw [List.countP_filter]
  exact List.countP_mono_left (by intro x _ hx; simp at hx; simp [hx.1])

lemma atMostOne_filter (q : PendingRow → Bool) (l : List PendingRow)
    (h : atMostOnePerKey l) : atMostOnePerKey (l.filter q) := by
  intro t u
  exact le_trans (countP_filter_le _ q l) (h t u)

lemma countP_map_keyPreserving (f : PendingRow → PendingRow)
    (hf : ∀ r, (f r).task_id = r.task_id ∧ (f r).user_id = r.user_id)
    (l : List PendingRow) (t u : Int) :
    (l.map f).countP (fun r => r.hasKey t u) = l.countP (fun r => r.hasKey t u) := by
  rw [List.countP_map]
  apply List.countP_congr
  intro r _
  simp [Function.comp, PendingRow.hasKey, (hf r).1, (hf r).2]

lemma atMostOne_upsert (s : DBState) (t u ts cid : Int) (txt : String) (ns : Int)
    (title clean : Option String) (h : atMostOnePerKey s.pending) :
    atMostOnePerKey (upsert_or_shift_pending s t u ts cid txt ns title clean).pending := by
  unfold upsert_or_shift_pending
  split
  · rename_i hemp
    intro t' u'
    rw [List.countP_append, List.countP_cons, List.countP_nil]
    rw [List.isEmpty_iff] at hemp
    split
    · rename_i hx
      simp only [PendingRow.hasKey, Bool.and_eq_true, beq_iff_eq] at hx
      have h0 : s.pending.countP (fun r => r.hasKey t' u') = 0 := by
        rw [List.countP_eq_length_filter]
        rw [← hx.1, ← hx.2, hemp]
        rfl
      omega
    · have := h t' u'
      omega
  · intro t' u'
    rw [countP_map_keyPreserving]
    · exact h t' u'
    · intro r
      split <;> simp

lemma atMostOne_markSent (s : DBState) (t u now ttl rep off : Int)
    (qs qe : TimeOfDay) (h : atMostOnePerKey s.pending) :
    atMostOnePerKey (mark_sent_or_delete_by_ttl s t u now ttl rep off qs qe).pending := by
  unfold mark_sent_or_delete_by_ttl
  split
  · exact h
  · split
    · exact atMostOne_filter _ _ h
    · intro t' u'
      rw [countP_map_keyPreserving]
      · exact h t' u'
      · intro r
        split <;> simp

lemma atMostOne_applyOp (s : DBState) (op : QueueOp) (h : atMostOnePerKey s.pending) :
    atMostOnePerKey (applyOp s op).pending := by
  cases op with
  | upsert t u ts c txt ns title clean => exact atMostOne_upsert s t u ts c txt ns title clean h
  | deleteOne t u => exact atMostOne_filter _ _ h
  | deleteTask t => exact atMostOne_filter _ _ h
  | deleteComment t c => exact atMostOne_filter _ _ h
  | markSent t u now ttl rep off qs qe => exact atMostOne_markSent s t u now ttl rep off qs qe h

/-- **C1.**  Whatever sequence of ingestion operations (upsert-or-shift,
reaction delete, closure delete, comment-retraction delete) and worker
updates is applied, a store holding at most one pending row per
`(work item, recipient)` pair keeps holding at most one such row. -/
theorem pending_at_most_one_per_pair (ops : List QueueOp) (s : DBState)
    (h : atMostOnePerKey s.pending) : atMostOnePerKey (applyOps s ops).pending := by
  induction ops generalizing s with
  | nil => exact h
  | cons op rest ih => exact ih (applyOp s op) (atMostOne_applyOp s op h)

/-- **C1, witness.**  A concrete history on the initially empty store — two
mentions of the same pair, a mention of another recipient, a worker update
and a reaction delete — ends with at most one row per pair. -/
theorem pending_at_most_one_per_pair_witness :
    atMostOnePerKey (applyOps { users := [], pending := [], processed := [], settings := [] }
      [QueueOp.upsert 1 2 0 10 "a" 100 none none,
       QueueOp.upsert 1 2 50 11 "b" 200 (some "T") none,
       QueueOp.upsert 1 3 60 11 "b" 200 none none,
       QueueOp.markSent 1 2 300 86400 10800 18000 ⟨22, 0⟩ ⟨9, 0⟩,
       QueueOp.deleteOne 1 3]).pending :=
  pending_at_most_one_per_pair _ _ (by intro t u; simp [atMostOnePerKey])

/-! ### C6 — frame of upsert-or-shift on an existing row -/

/-- A one-row store used in concrete checks: task 1, recipient 2, first and
last mention at 0, comment 10, title `"Old"`, due at 100, never sent. -/
def exRow : PendingRow :=
  ⟨1, 2, 0, 0, 10, "a", "a", some "Old", 100, 0⟩

/-- The store holding exactly `exRow` and nothing else. -/
def exState : DBState :=
  ⟨[], [exRow], [], []⟩

/-- **C6, counterexample.**  The claim says a shift overwrites *only* the
last-mention time, last-comment fields and next-send time.  Upserting a
mention with a non-empty `task_title` over an existing row also overwrites
the stored display title: here it changes from `some "Old"` to
`some "New"`. -/
theorem upsert_overwrites_title_counterexample :
    ((upsert_or_shift_pending exState 1 2 50 11 "b" 200 (some "New") none).pending.map
        (fun r => r.task_title)) = [some "New"] ∧
      exState.pending.map (fun r => r.task_title) = [some "Old"] := by
  constructor
  · decide
  · decide

/-- **C6 (amended).**  When upsert-or-shift runs for a pair whose row already
exists, no row is created or removed and every row keeps its key,
`times_sent` and `first_mention_at`; rows of other pairs are untouched, and
the pair's row gets exactly the new last-mention time, last-comment fields
(raw and cleaned) and next-send time — plus the display title, which is
overwritten exactly when a non-empty title is supplied. -/
theorem upsert_shift_frame (s : DBState) (t u ts cid : Int) (txt : String)
    (ns : Int) (title clean : Option String)
    (hex : (s.pending.filter (fun r => r.hasKey t u)).isEmpty = false) :
    (upsert_or_shift_pending s t u ts cid txt ns title clean).pending.length
        = s.pending.length ∧
    List.Forall₂ (fun r r' : PendingRow =>
        r'.times_sent = r.times_sent ∧
        r'.first_mention_at = r.first_mention_at ∧
        r'.task_id = r.task_id ∧ r'.user_id = r.user_id ∧
        (r.hasKey t u = false → r' = r) ∧
        (r.hasKey t u = true →
          r'.last_mention_at = ts ∧
          r'.last_mention_comment_id = cid ∧
          r'.last_mention_comment_text = txt ∧
          r'.next_send_at = ns ∧
          r'.last_mention_comment_text_clean = orText clean txt ∧
          r'.task_title = (if truthy title then title else r.task_title)))
      s.pending (upsert_or_shift_pending s t u ts cid txt ns title clean).pending := by
  unfold upsert_or_shift_pending
  rw [if_neg (by simp [hex])]
  constructor
  · exact List.length_map _ _
  · rw [List.forall₂_map_right_iff]
    rw [List.forall₂_same]
    intro r _
    by_cases hk : r.hasKey t u
    · rw [if_pos hk]
      refine ⟨rfl, rfl, rfl, rfl, ?_, ?_⟩
      · intro hc
        rw [hk] at hc
        cases hc
      · intro _
        exact ⟨rfl, rfl, rfl, rfl, rfl, rfl⟩
    · rw [if_neg hk]
      simp [hk]

/-- **C6, witness.**  The frame theorem applied to the one-row store
`exState` being shifted with a fresh mention and a non-empty title. -/
theorem upsert_shift_frame_witness :
    List.Forall₂ (fun r r' : PendingRow =>
        r'.times_sent = r.times_sent ∧
        r'.first_mention_at = r.first_mention_at ∧
        r'.task_id = r.task_id ∧ r'.user_id = r.user_id ∧
        (r.hasKey 1 2 = false → r' = r) ∧
        (r.hasKey 1 2 = true →
          r'.last_mention_at = 50 ∧
          r'.last_mention_comment_id = 11 ∧
          r'.last_mention_comment_text = "b" ∧
          r'.next_send_at = 200 ∧
          r'.last_mention_comment_text_clean = orText none "b" ∧
          r'.task_title = (if truthy (some "New") then some "New" else r.task_title)))
      exState.pending
      (upsert_or_shift_pending exState 1 2 50 11 "b" 200 (some "New") none).pending :=
  (upsert_shift_frame exState 1 2 50 11 "b" 200 (some "New") none (by decide)).2

/-! ### C2 — worker per-row update: TTL delete vs. reschedule -/

/-- A shifted row: first mention at 0, last mention 23 h later (82800 s),
due at 90000, never sent. -/
def c2Row : PendingRow :=
  ⟨1, 2, 0, 82800, 5, "t", "t", none, 90000, 0⟩

/-- The store holding exactly `c2Row`. -/
def c2State : DBState :=
  ⟨[], [c2Row], [], []⟩

/-- **C2, counterexample.**  With `ttl = 24 h` and `now` 25 h past the first
mention (`now = 90000`, `first_mention_at = 0`), the claim demands deletion.
The source compares `now` against `last_mention_at + ttl`
(`expires_at = last_mention_at + timedelta(hours=ttl_hours)` in
`mark_sent_or_delete_by_ttl`), and the row was re-mentioned 23 h in
(`last_mention_at = 82800`), so the row survives with `times_sent`
incremented instead. -/
theorem ttl_first_mention_counterexample :
    (90000 : Int) ≥ c2Row.first_mention_at + 86400 ∧
    ((mark_sent_or_delete_by_ttl c2State 1 2 90000 86400 10800 18000 ⟨22, 0⟩
        ⟨9, 0⟩).pending.map
      (fun r => (r.first_mention_at, r.last_mention_at, r.times_sent)))
      = [(0, 82800, 1)] := by
  constructor
  · decide
  · decide

/-- **C2 (amended).**  After a delivery attempt at `now`, the per-row update
deletes the pair's row exactly when `now` is at least the row's
**last-mention** time plus the TTL; otherwise every row of the pair stays
with `times_sent` incremented by exactly 1 (from the fetched row's value) and
`next_send_at` set to `schedule_after now repeat_interval …`, rows of other
pairs being untouched. -/
theorem mark_sent_ttl_or_reschedule (s : DBState) (t u now ttl rep off : Int)
    (qs qe : TimeOfDay) (row : PendingRow)
    (hrow : (s.pending.filter (fun r => r.hasKey t u)).head? = some row) :
    (now ≥ row.last_mention_at + ttl →
      mark_sent_or_delete_by_ttl s t u now ttl rep off qs qe = delete_pending s t u)
    ∧ (now < row.last_mention_at + ttl →
      List.Forall₂ (fun r r' : PendingRow =>
          (r.hasKey t u = false → r' = r) ∧
          (r.hasKey t u = true →
            r' = { r with
                   times_sent := row.times_sent + 1
                   next_send_at := schedule_after now rep off qs qe }))
        s.pending (mark_sent_or_delete_by_ttl s t u now ttl rep off qs qe).pending) := by
  constructor
  · intro hge
    unfold mark_sent_or_delete_by_ttl
    split
    · rename_i heq
      rw [hrow] at heq
      cases heq
    · rename_i row' heq
      rw [hrow] at heq
      injection heq with h
      subst h
      rw [if_pos hge]
  · intro hlt
    unfold mark_sent_or_delete_by_ttl
    split
    · rename_i heq
      rw [hrow] at heq
      cases heq
    · rename_i row' heq
      rw [hrow] at heq
      injection heq with h
      subst h
      rw [if_neg (by omega)]
      dsimp only
      rw [List.forall₂_map_right_iff, List.forall₂_same]
      intro r _
      by_cases hk : r.hasKey t u
      · rw [if_pos hk]
        exact ⟨fun hc => absurd hc (by simp [hk]), fun _ => rfl⟩
      · rw [if_neg hk]
        simp [hk]

/-- **C2, witness.**  On the one-row store `exState` (last mention at 0,
`ttl = 24 h`): at `now = 90000` (25 h) the update equals the targeted delete
and leaves no row; at `now = 50000` (≈ 13.9 h) the row is kept, `times_sent`
becomes 1 and `next_send_at` is rescheduled. -/
theorem mark_sent_ttl_or_reschedule_witness :
    (mark_sent_or_delete_by_ttl exState 1 2 90000 86400 10800 18000 ⟨22, 0⟩ ⟨9, 0⟩
        = delete_pending exState 1 2) ∧
    (mark_sent_or_delete_by_ttl exState 1 2 90000 86400 10800 18000 ⟨22, 0⟩
        ⟨9, 0⟩).pending = [] ∧
    List.Forall₂ (fun r r' : PendingRow =>
        (r.hasKey 1 2 = false → r' = r) ∧
        (r.hasKey 1 2 = true →
          r' = { r with
                 times_sent := exRow.times_sent + 1
                 next_send_at := schedule_after 50000 10800 18000 ⟨22, 0⟩ ⟨9, 0⟩ }))
      exState.pending
      (mark_sent_or_delete_by_ttl exState 1 2 50000 86400 10800 18000 ⟨22, 0⟩
        ⟨9, 0⟩).pending :=
  ⟨(mark_sent_ttl_or_reschedule exState 1 2 90000 86400 10800 18000 ⟨22, 0⟩ ⟨9, 0⟩
      exRow (by decide)).1 (by decide),
   by decide,
   (mark_sent_ttl_or_reschedule exState 1 2 50000 86400 10800 18000 ⟨22, 0⟩ ⟨9, 0⟩
      exRow (by decide)).2 (by decide)⟩

/-! ### C7 — disabled service or quiet hours skip the whole tick -/

/-- **C7.**  A worker tick with the `service_enabled` setting not equal to
the string `"true"`, or taken at an instant inside the quiet-hours window,
attempts no delivery (empty batch list) and leaves the state — every pending
row included — unchanged. -/
theorem worker_tick_skip (s : DBState) (now ttl rep off : Int) (qs qe : TimeOfDay)
    (h : service_enabled s = false ∨ is_in_quiet_hours now off qs qe = true) :
    worker_tick s now ttl rep off qs qe = (s, []) := by
  unfold worker_tick
  rcases h with h | h
  · simp [h]
  · cases hse : service_enabled s
    · simp [hse]
    · simp [hse, h]

/-- **C7, witness.**  A due row survives untouched both when the setting is
`"false"` (tick at a non-quiet instant) and when the service is enabled but
the instant (local 23:03, UTC 64800 at +05:00) is inside 22:00–09:00. -/
theorem worker_tick_skip_witness :
    worker_tick ⟨[], [exRow], [], [("service_enabled", "false")]⟩ 32400 86400 10800
        18000 ⟨22, 0⟩ ⟨9, 0⟩ = (⟨[], [exRow], [], [("service_enabled", "false")]⟩, []) ∧
    worker_tick ⟨[], [exRow], [], [("service_enabled", "true")]⟩ 64800 86400 10800
        18000 ⟨22, 0⟩ ⟨9, 0⟩ = (⟨[], [exRow], [], [("service_enabled", "true")]⟩, []) :=
  ⟨worker_tick_skip _ 32400 86400 10800 18000 ⟨22, 0⟩ ⟨9, 0⟩ (Or.inl (by decide)),
   worker_tick_skip _ 64800 86400 10800 18000 ⟨22, 0⟩ ⟨9, 0⟩ (Or.inr (by decide))⟩

/-! ### C10 — select_due requires a users row; unmatched rows are never touched -/

lemma filter_map_eq_filter (p : PendingRow → Bool) (f : PendingRow → PendingRow)
    (hp : ∀ x, p (f x) = p x) (hf : ∀ x, p x = true → f x = x)
    (l : List PendingRow) : (l.map f).filter p = l.filter p := by
  induction l with
  | nil => rfl
  | cons x xs ih =>
    simp only [List.map_cons, List.filter_cons]
    rw [hp x]
    cases hx : p x
    · simp [ih]
    · simp [ih, hf x hx]

lemma markSent_preserves_other_pairs (s : DBState) (t u now ttl rep off : Int)
    (qs qe : TimeOfDay) (t' u' : Int) (hne : ¬(t = t' ∧ u = u')) :
    ((mark_sent_or_delete_by_ttl s t u now ttl rep off qs qe).pending.filter
        (fun x => x.hasKey t' u'))
      = s.pending.filter (fun x => x.hasKey t' u') := by
  unfold mark_sent_or_delete_by_ttl
  split
  · rfl
  · split
    · unfold delete_pending
      dsimp only
      rw [List.filter_filter]
      apply List.filter_congr
      intro x _
      cases hx : x.hasKey t' u'
      · simp
      · unfold PendingRow.hasKey at *
        simp only [Bool.and_eq_true, beq_iff_eq] at hx
        simp [hx.1, hx.2]
        omega
    · dsimp only
      apply filter_map_eq_filter
      · intro x
        split <;> simp [PendingRow.hasKey]
      · intro x hx
        rw [if_neg]
        unfold PendingRow.hasKey at *
        simp only [Bool.and_eq_true, beq_iff_eq] at hx
        simp [hx.1, hx.2]
        omega

lemma foldl_markSent_preserves (due : List PendingRow) (s0 : DBState)
    (now ttl rep off : Int) (qs qe : TimeOfDay) (t' u' : Int)
    (h : ∀ d ∈ due, ¬(d.task_id = t' ∧ d.user_id = u')) :
    ((due.foldl (fun st r =>
        mark_sent_or_delete_by_ttl st r.task_id r.user_id now ttl rep off qs qe)
      s0).pending.filter (fun x => x.hasKey t' u'))
      = s0.pending.filter (fun x => x.hasKey t' u') := by
  induction due generalizing s0 with
  | nil => rfl
  | cons d rest ih =>
    rw [List.foldl_cons]
    rw [ih _ (fun x hx => h x (List.mem_cons_of_mem d hx))]
    exact markSent_preserves_other_pairs s0 d.task_id d.user_id now ttl rep off qs qe t' u'
      (h d (List.mem_cons_self d rest))

lemma mem_select_due (s : DBState) (now : Int) (r : PendingRow) :
    r ∈ select_due s now ↔
      r ∈ s.pending ∧ r.next_send_at ≤ now ∧ (get_user s r.user_id).isSome = true := by
  unfold select_due
  simp [List.mem_filter, and_assoc]
  tauto

/-- **C10.**  `select_due` returns exactly the pending rows that are due
(`next_send_at ≤ now`) *and* whose recipient id resolves in the users table;
consequently, for a row whose recipient has no users row, a worker tick never
puts it (or any row of its pair) in a delivery batch and leaves the rows of
its pair in the queue exactly as they were. -/
theorem select_due_requires_user (s : DBState) (now ttl rep off : Int)
    (qs qe : TimeOfDay) (r : PendingRow) :
    (r ∈ select_due s now ↔
      r ∈ s.pending ∧ r.next_send_at ≤ now ∧ (get_user s r.user_id).isSome = true)
    ∧ (get_user s r.user_id = none →
        ((worker_tick s now ttl rep off qs qe).1.pending.filter
            (fun x => x.hasKey r.task_id r.user_id))
          = s.pending.filter (fun x => x.hasKey r.task_id r.user_id)
        ∧ ∀ b ∈ (worker_tick s now ttl rep off qs qe).2, r ∉ b.2) := by
  constructor
  · exact mem_select_due s now r
  · intro hnone
    unfold worker_tick
    split
    · exact ⟨rfl, by intro b hb; cases hb⟩
    · split
      · exact ⟨rfl, by intro b hb; cases hb⟩
      · dsimp only
        split
        · exact ⟨rfl, by intro b hb; cases hb⟩
        · constructor
          · dsimp only
            apply foldl_markSent_preserves
            intro d hd hk
            have hdue := (mem_select_due s now d).1 hd
            rw [hk.2, hnone] at hdue
            simp at hdue
          · intro b hb hrb
            unfold group_by_user at hb
            rw [List.mem_map] at hb
            obtain ⟨uid, _, hbeq⟩ := hb
            rw [← hbeq] at hrb
            dsimp only at hrb
            have hrdue := (List.mem_filter.1 hrb).1
            have hdue := (mem_select_due s now r).1 hrdue
            rw [hnone] at hdue
            simp at hdue

/-- **C10, witness.**  A due row (`next_send_at = 100 ≤ now = 32400`) whose
recipient 2 has no users row, with the service enabled and the tick outside
quiet hours: the row's pair is untouched by the tick and appears in no
delivery batch. -/
theorem select_due_requires_user_witness :
    ((worker_tick ⟨[], [exRow], [], [("service_enabled", "true")]⟩ 32400 86400 10800
          18000 ⟨22, 0⟩ ⟨9, 0⟩).1.pending.filter (fun x => x.hasKey 1 2))
        = (⟨[], [exRow], [], [("service_enabled", "true")]⟩ : DBState).pending.filter
            (fun x => x.hasKey 1 2)
      ∧ ∀ b ∈ (worker_tick ⟨[], [exRow], [], [("service_enabled", "true")]⟩ 32400 86400
          10800 18000 ⟨22, 0⟩ ⟨9, 0⟩).2, exRow ∉ b.2 :=
  (select_due_requires_user ⟨[], [exRow], [], [("service_enabled", "true")]⟩ 32400
      86400 10800 18000 ⟨22, 0⟩ ⟨9, 0⟩ exRow).2 (by decide)

/-! ### C9 — batch ordering by urgency -/

lemma mem_insertByKeyDesc (key : α → Int) (l : List α) (x z : α) :
    z ∈ insertByKeyDesc key l x ↔ z = x ∨ z ∈ l := by
  induction l with
  | nil => simp [insertByKeyDesc]
  | cons y ys ih =>
    unfold insertByKeyDesc
    split
    · simp only [List.mem_cons]
    · simp only [List.mem_cons, ih]
      tauto

lemma pairwise_insertByKeyDesc (key : α → Int) (l : List α) (x : α)
    (h : List.Pairwise (fun a b => key b ≤ key a) l) :
    List.Pairwise (fun a b => key b ≤ key a) (insertByKeyDesc key l x) := by
  induction l with
  | nil => simp [insertByKeyDesc]
  | cons y ys ih =>
    rw [List.pairwise_cons] at h
    unfold insertByKeyDesc
    split
    · rename_i hgt
      rw [List.pairwise_cons]
      constructor
      · intro z hz
        rcases List.mem_cons.1 hz with hz | hz
        · subst hz
          omega
        · have := h.1 z hz
          omega
      · exact List.pairwise_cons.2 h
    · rename_i hle
      rw [List.pairwise_cons]
      constructor
      · intro z hz
        rcases (mem_insertByKeyDesc key ys x z).1 hz with hz | hz
        · subst hz
          omega
        · exact h.1 z hz
      · exact ih h.2

lemma pairwise_sortByKeyDesc_aux (key : α → Int) (l : List α) (acc : List α)
    (h : List.Pairwise (fun a b => key b ≤ key a) acc) :
    List.Pairwise (fun a b => key b ≤ key a) (l.foldl (insertByKeyDesc key) acc) := by
  induction l generalizing acc with
  | nil => exact h
  | cons x xs ih =>
    rw [List.foldl_cons]
    exact ih _ (pairwise_insertByKeyDesc key acc x h)

lemma pairwise_sortByKeyDesc (key : α → Int) (l : List α) :
    List.Pairwise (fun a b => key b ≤ key a) (sortByKeyDesc key l) :=
  pairwise_sortByKeyDesc_aux key l [] (by simp)

lemma fire_level_lt_of_hours_lt (h1 h2 t1 t2 : Int) (h : h2 < h1) :
    fire_level h2 t2 < fire_level h1 t1 := by
  unfold fire_level
  omega

/-- **C9.**  The formatted batch lists its entries in weakly decreasing
urgency (fire level) order — most urgent first — and for two rows of one
recipient with different hours-overdue the more overdue item comes first,
whichever order the rows were selected in. -/
theorem batch_ordering (stripAt : String → String) (tT tC : Nat) (now : Int)
    (records : List PendingRow) (r1 r2 : PendingRow)
    (h12 : hoursOverdue now r2.last_mention_at < hoursOverdue now r1.last_mention_at) :
    List.Pairwise (fun a b : TaskLine => b.fire_level ≤ a.fire_level)
      (format_multi stripAt tT tC now records)
    ∧ format_multi stripAt tT tC now [r1, r2]
        = [mkTaskLine stripAt tT tC now r1, mkTaskLine stripAt tT tC now r2]
    ∧ format_multi stripAt tT tC now [r2, r1]
        = [mkTaskLine stripAt tT tC now r1, mkTaskLine stripAt tT tC now r2] := by
  have hk : (mkTaskLine stripAt tT tC now r2).fire_level
      < (mkTaskLine stripAt tT tC now r1).fire_level :=
    fire_level_lt_of_hours_lt _ _ _ _ h12
  refine ⟨pairwise_sortByKeyDesc _ _, ?_, ?_⟩
  · unfold format_multi sortByKeyDesc
    simp only [List.map_cons, List.map_nil, List.foldl_cons, List.foldl_nil]
    simp only [insertByKeyDesc]
    rw [if_neg (by omega)]
  · unfold format_multi sortByKeyDesc
    simp only [List.map_cons, List.map_nil, List.foldl_cons, List.foldl_nil]
    simp only [insertByKeyDesc]
    rw [if_pos (by omega)]

/-- **C9, witness.**  At `now = 90000`, `exRow` (last mention 0, 25 h
overdue) and `c2Row` (last mention 82800, 2 h overdue) for the same
recipient: either input order yields the batch with the 25 h-overdue item
first. -/
theorem batch_ordering_witness :
    format_multi (fun s => s) 50 50 90000 [c2Row, exRow]
      = [mkTaskLine (fun s => s) 50 50 90000 exRow,
         mkTaskLine (fun s => s) 50 50 90000 c2Row] :=
  (batch_ordering (fun s => s) 50 50 90000 [] exRow c2Row (by decide)).2.2

/-! ### C5 / C8 — handler lemmas -/

lemma upsert_or_shift_fields (s : DBState) (t u ts cid : Int) (txt : String)
    (ns : Int) (title clean : Option String) :
    (upsert_or_shift_pending s t u ts cid txt ns title clean).users = s.users ∧
    (upsert_or_shift_pending s t u ts cid txt ns title clean).processed = s.processed ∧
    (upsert_or_shift_pending s t u ts cid txt ns title clean).settings = s.settings := by
  unfold upsert_or_shift_pending
  split
  · exact ⟨rfl, rfl, rfl⟩
  · exact ⟨rfl, rfl, rfl⟩

lemma foldl_fields_preserved {β : Type} (f : DBState → β → DBState)
    (hf : ∀ st b, (f st b).users = st.users ∧ (f st b).processed = st.processed ∧
      (f st b).settings = st.settings) :
    ∀ (l : List β) (s : DBState),
      ((l.foldl f s).users = s.users ∧ (l.foldl f s).processed = s.processed ∧
        (l.foldl f s).settings = s.settings) := by
  intro l
  induction l with
  | nil => intro s; exact ⟨rfl, rfl, rfl⟩
  | cons b bs ih =>
    intro s
    rw [List.foldl_cons]
    obtain ⟨h1, h2, h3⟩ := ih (f s b)
    obtain ⟨g1, g2, g3⟩ := hf s b
    exact ⟨h1.trans g1, h2.trans g2, h3.trans g3⟩

lemma processCommentMentions_fields (cleanOf : String → List String → String)
    (delay off : Int) (qs qe : TimeOfDay) (e : CommentEvent) (c : CommentIn)
    (s : DBState) :
    (processCommentMentions cleanOf delay off qs qe e c s).users = s.users ∧
    (processCommentMentions cleanOf delay off qs qe e c s).processed = s.processed ∧
    (processCommentMentions cleanOf delay off qs qe e c s).settings = s.settings := by
  unfold processCommentMentions
  apply foldl_fields_preserved
  intro st uid
  cases hgu : get_user st uid
  · simp [hgu]
  · simp only [hgu]
    exact upsert_or_shift_fields st e.task_id uid c.create_date c.id _ _ e.title _

lemma runComments_true_snd (cleanOf : String → List String → String)
    (delay off : Int) (qs qe : TimeOfDay) (e : CommentEvent) :
    ∀ (cs : List CommentIn) (s : DBState),
      (runComments true cleanOf delay off qs qe e s cs).2 = true := by
  intro cs
  induction cs with
  | nil => intro s; rfl
  | cons c rest ih =>
    intro s
    simp only [runComments]
    split
    · exact ih s
    · rw [if_pos trivial]
      exact ih _

lemma runComments_true_processed_mono (cleanOf : String → List String → String)
    (delay off : Int) (qs qe : TimeOfDay) (e : CommentEvent) :
    ∀ (cs : List CommentIn) (s : DBState) (x : Int × Int), x ∈ s.processed →
      x ∈ (runComments true cleanOf delay off qs qe e s cs).1.processed := by
  intro cs
  induction cs with
  | nil => intro s x hx; exact hx
  | cons c rest ih =>
    intro s x hx
    simp only [runComments]
    split
    · exact ih s x hx
    · rw [if_pos trivial]
      apply ih
      split
      · unfold insert_processed_comment
        exact List.mem_append.2 (Or.inl hx)
      · rw [(processCommentMentions_fields cleanOf delay off qs qe e c _).2.1]
        unfold insert_processed_comment
        exact List.mem_append.2 (Or.inl hx)

lemma runComments_true_processes (cleanOf : String → List String → String)
    (delay off : Int) (qs qe : TimeOfDay) (e : CommentEvent) :
    ∀ (cs : List CommentIn) (s : DBState) (c : CommentIn), c ∈ cs →
      (e.task_id, c.id) ∈ (runComments true cleanOf delay off qs qe e s cs).1.processed := by
  intro cs
  induction cs with
  | nil => intro s c hc; cases hc
  | cons c0 rest ih =>
    intro s c hc
    simp only [runComments]
    rcases List.mem_cons.1 hc with hc | hc
    · subst hc
      split
      · rename_i hproc
        apply runComments_true_processed_mono
        unfold processed_comment_exists at hproc
        simpa using hproc
      · rw [if_pos trivial]
        apply runComments_true_processed_mono
        split
        · unfold insert_processed_comment
          exact List.mem_append.2 (Or.inr (by simp))
        · rw [(processCommentMentions_fields cleanOf delay off qs qe e c _).2.1]
          unfold insert_processed_comment
          exact List.mem_append.2 (Or.inr (by simp))
    · split
      · exact ih s c hc
      · rw [if_pos trivial]
        exact ih _ c hc

lemma runComments_skip_all (ledgerOk : Bool) (cleanOf : String → List String → String)
    (delay off : Int) (qs qe : TimeOfDay) (e : CommentEvent) :
    ∀ (cs : List CommentIn) (s : DBState),
      (∀ c ∈ cs, processed_comment_exists s e.task_id c.id = true) →
      runComments ledgerOk cleanOf delay off qs qe e s cs = (s, true) := by
  intro cs
  induction cs with
  | nil => intro s _; rfl
  | cons c0 rest ih =>
    intro s h
    simp only [runComments]
    rw [if_pos (h c0 (List.mem_cons_self c0 rest))]
    exact ih s (fun c hc => h c (List.mem_cons_of_mem c0 hc))

lemma runComments_false_aborts (cleanOf : String → List String → String)
    (delay off : Int) (qs qe : TimeOfDay) (e : CommentEvent) :
    ∀ (cs : List CommentIn) (s : DBState),
      (∃ c ∈ cs, processed_comment_exists s e.task_id c.id = false) →
      runComments false cleanOf delay off qs qe e s cs = (s, false) := by
  intro cs
  induction cs with
  | nil =>
    intro s h
    obtain ⟨c, hc, _⟩ := h
    cases hc
  | cons c0 rest ih =>
    intro s h
    obtain ⟨c, hc, hcf⟩ := h
    simp only [runComments]
    by_cases h0 : processed_comment_exists s e.task_id c0.id = true
    · rw [if_pos h0]
      apply ih
      refine ⟨c, ?_, hcf⟩
      rcases List.mem_cons.1 hc with hceq | hcr
      · subst hceq
        rw [h0] at hcf
        cases hcf
      · exact hcr
    · rw [if_neg h0]
      rfl

lemma foldl_delete_eq_filter (tid : Int) :
    ∀ (as : List Int) (s : DBState),
      as.foldl (fun st a => delete_pending st tid a) s
        = { s with pending := s.pending.filter (fun r => !(r.task_id == tid && as.contains r.user_id)) } := by
  intro as
  induction as with
  | nil =>
    intro s
    simp
  | cons a as ih =>
    intro s
    rw [List.foldl_cons, ih]
    unfold delete_pending
    dsimp only
    rw [List.filter_filter]
    congr 1
    apply List.filter_congr
    intro r _
    unfold PendingRow.hasKey
    rw [List.contains_cons]
    cases r.task_id == tid <;> cases r.user_id == a <;> cases as.contains r.user_id <;> rfl

/-- The combined pending-row predicate of the reaction-clearing tail: a row
survives when it is neither an author's row nor the (truthy) actor's row for
the task. -/
def clearedPred (tid : Int) (as : List Int) (actor : Option Int)
    (r : PendingRow) : Bool :=
  (match actor with
   | some a => if a == 0 then true else !(r.hasKey tid a)
   | none => true) && !(r.task_id == tid && as.contains r.user_id)

lemma clear_reactors_eq_filter (tid : Int) (as : List Int) (actor : Option Int)
    (s : DBState) :
    clear_reactors tid as actor s
      = { s with pending := s.pending.filter (clearedPred tid as actor) } := by
  unfold clear_reactors clearedPred
  cases actor with
  | none =>
    dsimp only
    rw [foldl_delete_eq_filter]
    rfl
  | some a =>
    dsimp only
    cases haz : (a == 0)
    · rw [if_neg (by simp [haz])]
      rw [foldl_delete_eq_filter]
      unfold delete_pending
      dsimp only
      rw [List.filter_filter]
      rfl
    · rw [if_pos (by simp [haz])]
      rw [foldl_delete_eq_filter]
      rfl

lemma clear_reactors_idem (tid : Int) (as : List Int) (actor : Option Int)
    (s : DBState) :
    clear_reactors tid as actor (clear_reactors tid as actor s)
      = clear_reactors tid as actor s := by
  simp only [clear_reactors_eq_filter]
  rw [List.filter_filter]
  congr 1
  apply List.filter_congr
  intro r _
  rw [Bool.and_self]

lemma clear_reactors_processed (tid : Int) (as : List Int) (actor : Option Int)
    (s : DBState) :
    (clear_reactors tid as actor s).processed = s.processed := by
  rw [clear_reactors_eq_filter]

/-- One evaluation step of the handler on a non-empty event whose per-comment
loop completes. -/
lemma handle_nonempty_eq (cleanOf : String → List String → String)
    (delay off : Int) (qs qe : TimeOfDay) (e : CommentEvent) (s s1 : DBState)
    (hemp : e.comments.isEmpty = false)
    (h1 : runComments true cleanOf delay off qs qe e s
        (sortByKeyAsc (fun c => c.create_date) e.comments) = (s1, true)) :
    handle_comment_event cleanOf delay off qs qe e s
      = clear_reactors e.task_id
          (authorsToClear (sortByKeyAsc (fun c => c.create_date) e.comments))
          e.actor s1 := by
  unfold handle_comment_event handle_comment_event_run
  rw [if_neg (by simp [hemp])]
  dsimp only
  rw [h1]

/-- **C5.**  Replaying a comment event is a no-op: every comment of the event
was recorded in the dedup ledger by the first processing, so the second
processing skips every comment (no ledger insert, no upsert) and its
reaction-clearing deletes remove nothing new — the final state, pending
queue included, is exactly the state after processing the event once.  The
text-cleaning pipeline `cleanOf` is arbitrary. -/
theorem comment_event_idempotent (cleanOf : String → List String → String)
    (delay off : Int) (qs qe : TimeOfDay) (e : CommentEvent) (s : DBState) :
    handle_comment_event cleanOf delay off qs qe e
        (handle_comment_event cleanOf delay off qs qe e s)
      = handle_comment_event cleanOf delay off qs qe e s := by
  cases hemp : e.comments.isEmpty
  · rcases h1 : runComments true cleanOf delay off qs qe e s
        (sortByKeyAsc (fun c => c.create_date) e.comments) with ⟨s1, b1⟩
    have hb1 := runComments_true_snd cleanOf delay off qs qe e
      (sortByKeyAsc (fun c => c.create_date) e.comments) s
    rw [h1] at hb1
    dsimp only at hb1
    subst hb1
    have hstep := handle_nonempty_eq cleanOf delay off qs qe e s s1 hemp h1
    have hall : ∀ c ∈ sortByKeyAsc (fun c => c.create_date) e.comments,
        processed_comment_exists
          (clear_reactors e.task_id
            (authorsToClear (sortByKeyAsc (fun c => c.create_date) e.comments))
            e.actor s1) e.task_id c.id = true := by
      intro c hc
      have hmem := runComments_true_processes cleanOf delay off qs qe e
        (sortByKeyAsc (fun c => c.create_date) e.comments) s c hc
      rw [h1] at hmem
      dsimp only at hmem
      unfold processed_comment_exists
      rw [clear_reactors_processed]
      simpa using hmem
    have hstep2 := handle_nonempty_eq cleanOf delay off qs qe e
      (clear_reactors e.task_id
        (authorsToClear (sortByKeyAsc (fun c => c.create_date) e.comments))
        e.actor s1) _ hemp
      (runComments_skip_all true cleanOf delay off qs qe e
        (sortByKeyAsc (fun c => c.create_date) e.comments) _ hall)
    rw [hstep, hstep2, clear_reactors_idem]
  · unfold handle_comment_event handle_comment_event_run
    rw [if_pos (by simp [hemp]), if_pos (by simp [hemp])]

/-- **C8.**  When the dedup-ledger write fails (store unavailable) on an
event that still has an unprocessed comment, the handler aborts at the first
unprocessed comment — before any queue mutation for it and before the
reaction-clearing deletes — returning the store exactly as it was with a
failure, and the comment is still unrecorded; a later redelivery of the same
event therefore produces exactly what processing it with a healthy store the
first time would have. -/
theorem dedup_write_failure_aborts (cleanOf : String → List String → String)
    (delay off : Int) (qs qe : TimeOfDay) (e : CommentEvent) (s : DBState)
    (h : ∃ c ∈ sortByKeyAsc (fun c => c.create_date) e.comments,
        processed_comment_exists s e.task_id c.id = false) :
    handle_comment_event_run false cleanOf delay off qs qe e s = (s, false)
    ∧ handle_comment_event cleanOf delay off qs qe e
        ((handle_comment_event_run false cleanOf delay off qs qe e s).1)
      = handle_comment_event cleanOf delay off qs qe e s := by
  have hemp : e.comments.isEmpty = false := by
    cases hh : e.comments.isEmpty
    · rfl
    · exfalso
      obtain ⟨c, hc, _⟩ := h
      rw [List.isEmpty_iff] at hh
      rw [hh] at hc
      cases hc
  have hmain : handle_comment_event_run false cleanOf delay off qs qe e s = (s, false) := by
    unfold handle_comment_event_run
    rw [if_neg (by simp [hemp])]
    dsimp only
    rw [runComments_false_aborts cleanOf delay off qs qe e _ s h]
  exact ⟨hmain, by rw [hmain]⟩

/-- **C8, witness.**  A single-comment event (comment 7 mentioning user 2)
on the empty store: with the ledger store down the handler returns the store
untouched and fails, and a redelivery processed with a healthy store equals
the healthy first-time processing. -/
theorem dedup_write_failure_aborts_witness :
    handle_comment_event_run false (fun t _ => t) 10800 18000 ⟨22, 0⟩ ⟨9, 0⟩
        ⟨1, none, none, [⟨7, some "hi", 0, none, [2]⟩]⟩
        ⟨[], [], [], []⟩
      = (⟨[], [], [], []⟩, false)
    ∧ handle_comment_event (fun t _ => t) 10800 18000 ⟨22, 0⟩ ⟨9, 0⟩
        ⟨1, none, none, [⟨7, some "hi", 0, none, [2]⟩]⟩
        ((handle_comment_event_run false (fun t _ => t) 10800 18000 ⟨22, 0⟩ ⟨9, 0⟩
          ⟨1, none, none, [⟨7, some "hi", 0, none, [2]⟩]⟩ ⟨[], [], [], []⟩).1)
      = handle_comment_event (fun t _ => t) 10800 18000 ⟨22, 0⟩ ⟨9, 0⟩
          ⟨1, none, none, [⟨7, some "hi", 0, none, [2]⟩]⟩ ⟨[], [], [], []⟩ :=
  dedup_write_failure_aborts (fun t _ => t) 10800 18000 ⟨22, 0⟩ ⟨9, 0⟩
    ⟨1, none, none, [⟨7, some "hi", 0, none, [2]⟩]⟩ ⟨[], [], [], []⟩
    (by decide)

end PyrusBot
